import Mathlib

/-!
# Kettle: scheduler, message store and project resolver — a shallow embedding

This file embeds the core of the Kettle repository in Lean and proves (or
refutes) the specification's claims about it.

Embedded source functions:
* `slack_fetch.save_messages` — the message-store append (merge by `ts`,
  newest-first sort, watermark-file side write);
* `kettle_monitor.KettleMonitor` — the silence-gated scheduler
  (`check_slack_messages`, `_maybe_start_pipeline`, `_run_pipeline`);
* `project_matcher.find_closest_project` (and its identical twin
  `tools/project_matcher._find_closest_project_json_fallback`);
* `extract_tasks.extract_valid_tasks_json` — the LLM-response parser;
* `utils/json_utils.clear_json_files` — the startup state wipe.

Conventions: Python floats carrying Slack timestamps are modelled as `ℚ`;
a missing/empty `ts` field is `Option.none`; file contents are modelled
explicitly; exceptions are modelled by `Bool` flags / `Except`; the
thread-interleaved parts (`_maybe_start_pipeline` spawning `_run_pipeline`,
the snapshot-and-swap racing the poll loop's appends) are modelled as
labelled transition systems whose atomic steps are the individual reads and
writes the Python code performs.
-/

namespace Kettle

/-- A stored Slack message as written by `save_messages` in `slack_fetch.py`:
exactly the three persisted fields `text`, `user`, `ts`.  A Slack `ts` is a
canonical decimal string; we model its numeric value as `ℚ`, with `none`
standing for a missing or empty (falsy) `ts` field. -/
structure Msg where
  text : String
  user : String
  ts : Option ℚ
deriving DecidableEq, Repr

/-- The sort key `save_messages` uses: `float(x.get("ts", 0))`. -/
def tsKey (m : Msg) : ℚ := m.ts.getD 0

/-- Assignment `d[k] = v` on a Python dict, preserving insertion order: an
existing key keeps its position and receives the new value; a fresh key is
appended at the end. -/
def upsert (k : ℚ) (v : Msg) : List (ℚ × Msg) → List (ℚ × Msg)
  | [] => [(k, v)]
  | (k', v') :: rest => if k' = k then (k, v) :: rest else (k', v') :: upsert k v rest

/-- Keyed insertion of each message by its `ts`, skipping messages whose `ts`
is missing/empty.  Both the dict comprehension over `existing`
(`{m["ts"]: m for m in existing if m.get("ts")}`) and the subsequent
`for m in new_batch: combined_map[ts] = m` loop in `save_messages` have this
shape. -/
def buildMap (msgs : List Msg) (m0 : List (ℚ × Msg)) : List (ℚ × Msg) :=
  msgs.foldl (fun acc msg =>
    match msg.ts with
    | some k => upsert k msg acc
    | none => acc) m0

/-- `save_messages(messages)` from `slack_fetch.py` (lines 57–110):
drop incoming messages authored by the bot user, merge the rest into the
existing stored list deduplicating by `ts` (last write wins), sort the merged
list newest-first by `float(ts)`, store it, and — when the result is
non-empty — overwrite `json/last_processed_ts.txt` with the head's timestamp.
Returns the new stored list together with the value written to the
watermark file (`none` when the file is left untouched). -/
def save_messages (botUserId : String) (incoming existing : List Msg) :
    List Msg × Option ℚ :=
  let newBatch := incoming.filter (fun m => m.user ≠ botUserId)
  let combinedMap := buildMap newBatch (buildMap existing [])
  let combined := combinedMap.map Prod.snd
  let sorted := combined.mergeSort (fun a b => decide (tsKey b ≤ tsKey a))
  (sorted, sorted.head?.map tsKey)

/-- First-occurrence lookup in the ordered dict, i.e. Python `d[k]`. -/
def lookupQ (k : ℚ) : List (ℚ × Msg) → Option Msg
  | [] => none
  | (k', v) :: rest => if k' = k then some v else lookupQ k rest

/-- The key list of the ordered dict. -/
def keysQ (m : List (ℚ × Msg)) : List ℚ := m.map Prod.fst

/-- The last element of `L` whose `ts` is `some k` (the value a sequence of
keyed insertions of `L` leaves at key `k`). -/
def findLastTs (k : ℚ) : List Msg → Option Msg
  | [] => none
  | m :: rest =>
    match findLastTs k rest with
    | some v => some v
    | none => if m.ts = some k then some m else none

/-! ## Project resolver (`project_matcher.py`, and the identical loop in
`tools/project_matcher.py`, `_find_closest_project_json_fallback`) -/

/-- A stored project record.  The embedding vector itself and the cosine
similarity against the query are computed by external collaborators
(`SentenceTransformer` / `sklearn`), so the per-record similarity enters the
model as an oracle `score : ProjRecord → ℚ` below; cosine similarity always
lies in `[-1, 1]`. -/
structure ProjRecord where
  name : String
  folder : String
deriving DecidableEq, Repr

/-- `SIMILARITY_THRESHOLD = 0.2`. -/
def SIMILARITY_THRESHOLD : ℚ := 1/5

/-- One iteration of the scan in `find_closest_project`: strict `>` against
the best score so far (seeded with `-1`), so an equal score never displaces
the incumbent. -/
def resolveStep (score : ProjRecord → ℚ) (acc : Option (String × String) × ℚ)
    (r : ProjRecord) : Option (String × String) × ℚ :=
  if score r > acc.2 then (some (r.name, r.folder), score r) else acc

/-- `find_closest_project(messages)` (`project_matcher.py` lines 72–89):
empty store short-circuits to `(None, 0.0)`; otherwise linear-scan all
records tracking the strict-`>` maximum from `best_score = -1`, and return
the best folder iff the best score reaches `SIMILARITY_THRESHOLD`. -/
def find_closest_project (score : ProjRecord → ℚ) (projects : List ProjRecord) :
    Option String × ℚ :=
  if projects.isEmpty then (none, 0)
  else
    let best := projects.foldl (resolveStep score) (none, -1)
    if best.2 ≥ SIMILARITY_THRESHOLD then (best.1.map Prod.snd, best.2)
    else (none, best.2)

/-- The maximum tracked by the scan: fold of `max` seeded with `-1`. -/
def maxScore (score : ProjRecord → ℚ) (projects : List ProjRecord) : ℚ :=
  projects.foldl (fun acc r => max acc (score r)) (-1)

/-- The first record attaining the maximum score (Python dict iteration
order, i.e. insertion order). -/
def firstBest (score : ProjRecord → ℚ) (projects : List ProjRecord) :
    Option ProjRecord :=
  projects.find? (fun r => decide (score r = maxScore score projects))

/-! ## Monitor scheduling state (`kettle_monitor.py`) -/

/-- `self.silence_seconds = 60.0`. -/
def silence_seconds : ℚ := 60

/-- The scheduler-visible state of `KettleMonitor`. -/
structure MonState where
  last_processed_ts : ℚ
  last_new_message_ts : ℚ
  pipeline_running : Bool
deriving DecidableEq, Repr

/-- The update in `check_slack_messages` (lines 196–199): the newest fetched
message timestamp replaces `last_new_message_ts` only when it is strictly
larger, which restarts the silence window. -/
def observe_latest (st : MonState) (latest_ts : ℚ) : MonState :=
  if latest_ts > st.last_new_message_ts then
    { st with last_new_message_ts := latest_ts }
  else st

/-- The guard of `_maybe_start_pipeline` (lines 74–88): the pipeline thread
is spawned iff the silence window has elapsed (measured from the newest
observed message timestamp), the newest timestamp is strictly beyond the
watermark, and no pipeline is already marked running. -/
def maybe_start_guard (now : ℚ) (st : MonState) (latest_ts : ℚ) : Bool :=
  decide (now - st.last_new_message_ts ≥ silence_seconds)
    && decide (latest_ts > st.last_processed_ts)
    && !st.pipeline_running

/-! ## One pipeline run (`kettle_monitor._run_pipeline`, lines 90–169) -/

/-- Which of the three externally-effectful sections of `_run_pipeline`
raise.  Extraction (`extract_tasks.main()`) is guarded only by the outer
`try`; dependency analysis and the project match each sit in their own inner
`try/except` whose handler merely logs. -/
structure PipeEffects where
  extractRaises : Bool
  depRaises : Bool
  matchRaises : Bool
deriving DecidableEq, Repr

/-- The monitor state `_run_pipeline` touches: the pending message list
(`json/messages.json`) and the watermark (`self.last_processed_ts`, mirrored
to `json/last_processed_ts.txt`). -/
structure Files where
  messages : List Msg
  lastProcessedTs : ℚ
deriving DecidableEq, Repr

/-- The sequential effect of one `_run_pipeline` invocation with snapshot
timestamp `snapshot_latest_ts`: snapshot-and-swap the pending list (skipped
when it is empty; the `batch.json` side file is deleted again in `finally`),
then run extraction; an exception there is caught by the outer handler and
the watermark is left alone, while exceptions in dependency analysis or the
project match are swallowed by their inner handlers, after which
`_update_last_processed_ts(snapshot_latest_ts)` runs unconditionally. -/
def run_pipeline (snapshot_latest_ts : ℚ) (fx : PipeEffects) (st : Files) : Files :=
  let snapped : Files := if st.messages.isEmpty then st else { st with messages := [] }
  if fx.extractRaises then snapped
  else { snapped with lastProcessedTs := snapshot_latest_ts }

/-- One poll-tick that may trigger a run (for watermark-evolution claims):
`gatesOk` bundles the silence gate and the not-already-running gate, whose
truth does not depend on the watermark; the `latest_ts > last_processed_ts`
gate is evaluated against the current watermark as in
`_maybe_start_pipeline`. -/
structure RunEvent where
  latestTs : ℚ
  gatesOk : Bool
  fx : PipeEffects
deriving DecidableEq, Repr

/-- Effect of one poll tick on the run state under sequential runs. -/
def applyRun (st : Files) (e : RunEvent) : Files :=
  if e.gatesOk && decide (e.latestTs > st.lastProcessedTs) then
    run_pipeline e.latestTs e.fx st
  else st

/-! ## Single-flight start attempts as a labelled transition system

`_maybe_start_pipeline` reads `self.pipeline_running` in the poll thread and,
if the guards pass, spawns a `_run_pipeline` thread; that thread sets
`pipeline_running = True` (under `self._lock`) only once it is scheduled, and
clears it in its `finally` block.  The atomic steps below are exactly these
three program points. -/

/-- Lifecycle of one spawned `_run_pipeline` thread: created but not yet past
`self.pipeline_running = True`; past it (run in progress); finished
(`finally` executed, flag cleared). -/
inductive Phase
  | spawned
  | acquired
  | finished
deriving DecidableEq, Repr

/-- Shared scheduler state: the `pipeline_running` flag plus the phases of
all threads spawned so far. -/
structure Sched where
  pipelineRunning : Bool
  threads : List Phase
deriving DecidableEq, Repr

/-- Atomic events: a poll-thread start attempt (with the silence and
newer-than-watermark guards given, since they do not read the flag), a
spawned thread setting the flag, and a running thread finishing. -/
inductive SchedAct
  | tryStart (silenceMet newerThanProcessed : Bool)
  | acquire (i : ℕ)
  | finish (i : ℕ)
deriving DecidableEq, Repr

/-- The transition function.  A `tryStart` always returns immediately: when
any guard fails (including `pipeline_running` being set) the state is
unchanged and nothing is queued; otherwise a new thread is spawned.
`acquire`/`finish` are enabled only in the matching phase. -/
def schedStep (s : Sched) : SchedAct → Option Sched
  | .tryStart sm nw =>
    if sm && nw && !s.pipelineRunning then
      some { s with threads := s.threads ++ [.spawned] }
    else some s
  | .acquire i =>
    match s.threads.get? i with
    | some .spawned =>
      some { pipelineRunning := true, threads := s.threads.set i .acquired }
    | _ => none
  | .finish i =>
    match s.threads.get? i with
    | some .acquired =>
      some { pipelineRunning := false, threads := s.threads.set i .finished }
    | _ => none

/-- Run a list of events from a state; `none` if some event is not enabled. -/
def schedRun (s : Sched) : List SchedAct → Option Sched
  | [] => some s
  | a :: acts =>
    match schedStep s a with
    | some s' => schedRun s' acts
    | none => none

/-- Threads currently in flight (spawned or acquired, not yet finished). -/
def inFlight (s : Sched) : ℕ :=
  s.threads.count .spawned + s.threads.count .acquired

/-- Threads spawned but not yet past the flag assignment. -/
def spawnedCount (s : Sched) : ℕ := s.threads.count .spawned

/-- Process start: flag clear, no threads. -/
def schedInit : Sched := { pipelineRunning := false, threads := [] }

/-- The single-flight invariant: at most one run in flight, and the
`pipeline_running` flag is set exactly when some thread is past the flag
assignment and not yet finished. -/
def SchedInv (s : Sched) : Prop :=
  inFlight s ≤ 1 ∧ (s.pipelineRunning = true ↔ 0 < s.threads.count .acquired)

/-- Executions in which every `tryStart` happens at a state with no
spawned-but-not-yet-acquired thread: each spawned `_run_pipeline` thread gets
to set `pipeline_running` before the next poll tick re-evaluates the guard
(what the 10-second poll interval is relied on to ensure). -/
inductive CSteps : Sched → List SchedAct → Sched → Prop
  | nil (s : Sched) : CSteps s [] s
  | cons (s s' s'' : Sched) (a : SchedAct) (acts : List SchedAct)
      (hstep : schedStep s a = some s')
      (hpoll : ∀ sm nw, a = .tryStart sm nw → spawnedCount s = 0)
      (hrest : CSteps s' acts s'') : CSteps s (a :: acts) s''

/-! ## Snapshot-and-swap as a labelled transition system

In `_run_pipeline` (lines 97–109) the snapshot is a plain read of
`json/messages.json` followed, as a separate write, by clearing the file; the
poll thread keeps appending (via `save_messages`) concurrently.  The atomic
steps are the read, the clear, and one append. -/

/-- Program counter of the swap section of the run thread. -/
inductive SwapPc
  | idle
  | readDone
  | cleared
deriving DecidableEq, Repr

/-- State: the live pending list (`json/messages.json`), the snapshot batch
(`json/batch.json`), and the swap program counter. -/
structure SwapSt where
  pending : List Msg
  batch : List Msg
  pc : SwapPc
deriving DecidableEq, Repr

/-- Events: the snapshot read, the clear write, and an append of one inbound
message by the poll thread. -/
inductive SwapAct
  | snapRead
  | snapClear
  | append (m : Msg)
deriving DecidableEq, Repr

/-- Transition function.  An empty read skips the batch write and the clear
(the `if current_msgs:` guard); otherwise the clear is a separate later
write.  Appends are enabled at any time. -/
def swapStep (s : SwapSt) : SwapAct → Option SwapSt
  | .snapRead =>
    if s.pc = .idle then
      if s.pending.isEmpty then some { s with pc := .cleared }
      else some { s with batch := s.pending, pc := .readDone }
    else none
  | .snapClear =>
    if s.pc = .readDone then some { s with pending := [], pc := .cleared }
    else none
  | .append m => some { s with pending := s.pending ++ [m] }

/-- Run a list of swap events. -/
def swapRun (s : SwapSt) : List SwapAct → Option SwapSt
  | [] => some s
  | a :: acts =>
    match swapStep s a with
    | some s' => swapRun s' acts
    | none => none

/-! ## LLM-response parsing (`extract_tasks.extract_valid_tasks_json`,
lines 384–396) and the startup wipe (`utils/json_utils.clear_json_files`) -/

/-- A parsed Python/JSON value. -/
inductive PyVal
  | null
  | bool (b : Bool)
  | num (q : ℚ)
  | str (s : String)
  | arr (elems : List PyVal)
  | dict (fields : List (String × PyVal))

/-- First binding of a key in a JSON object. -/
def assocFind (k : String) : List (String × PyVal) → Option PyVal
  | [] => none
  | (k', v) :: rest => if k' = k then some v else assocFind k rest

/-- `extract_valid_tasks_json(response)`: the argument is the outcome of
`json.loads(response)` — `none` for a `JSONDecodeError` (non-parseable text).
A decode error is caught and an empty list returned; a dict with a `tasks`
key yields that value; a list is returned as-is; any other successfully
parsed value raises `ValueError("Unexpected JSON structure")`, which the
`except json.JSONDecodeError` clause does not catch. -/
def extract_valid_tasks_json (parsed : Option PyVal) : Except String PyVal :=
  match parsed with
  | none => .ok (.arr [])
  | some (.dict fs) =>
    match assocFind "tasks" fs with
    | some t => .ok t
    | none => .error "Unexpected JSON structure"
  | some (.arr es) => .ok (.arr es)
  | some _ => .error "Unexpected JSON structure"

/-- Does a modelled Python call raise? -/
def pyRaises {ε α : Type} (x : Except ε α) : Bool :=
  match x with
  | .ok _ => false
  | .error _ => true

/-- `extract_tasks.main()` (`extract_tasks.py` lines 535–580) as observed by
one pipeline run; `fetched` is the message-text list its `fetch_messages()`
read.  An empty list returns early ("No messages to process").  Otherwise
the run builds and saves hierarchical tasks — `create_hierarchical_tasks`
invokes `extract_main_objective` and `extract_subtasks_from_messages` with
one-element lists only (lines 219 and 222), whose single-message branches
call neither the LLM nor the parse helper — and then evaluates
`if research_tasks and len(research_tasks) > 0:` (line 567).  The name
`research_tasks` is bound nowhere: not locally in `main`, not at module
level, and not by the star imports (`dependency_analyzer` has no such
module-level name, and `research_processor.research_tasks` is local to
`process_research_tasks`).  That line therefore raises `NameError`, outside
any handler in `main`, so every message-processing call of `main()` raises
before returning. -/
def extract_tasks_main (fetched : List String) : Except String Unit :=
  if fetched.isEmpty then Except.ok ()
  else Except.error "NameError: name research_tasks is not defined"

/-- One `_run_pipeline` invocation whose Extract outcome is that of
`extract_tasks_main` on the message texts its `fetch_messages()` read. -/
def run_pipeline_extract (snapTs : ℚ) (fetched : List String) (dep mt : Bool)
    (st : Files) : Files :=
  run_pipeline snapTs
    { extractRaises := pyRaises (extract_tasks_main fetched),
      depRaises := dep, matchRaises := mt } st

/-- Python `s.endswith(suffix)` over the character sequence. -/
def strEndsWith (s suffix : String) : Bool :=
  suffix.data.reverse.isPrefixOf s.data.reverse

/-- Contents of one file under `json/`. -/
inductive FileContent
  | jsonVal (v : PyVal)
  | text (s : String)

/-- The default skeleton `clear_json_files` writes into `media.json`. -/
def emptyMediaVal : PyVal :=
  .dict [("research_topics", .dict []),
         ("summary", .dict [("total_research_topics", .num 0),
                            ("total_media_resources", .num 0),
                            ("last_updated", .str "")])]

/-- Per-file action of `clear_json_files` (`utils/json_utils.py` lines
10–53): `media.json` is reset to the default skeleton, every other `.json`
file (the `project_embeddings.json` branch writes the same `{}` as the
generic branch) to the empty object, every `.txt` file to the empty string;
other files are untouched. -/
def clearFileContent (name : String) (c : FileContent) : FileContent :=
  if name = "media.json" then .jsonVal emptyMediaVal
  else if name = "project_embeddings.json" then .jsonVal (.dict [])
  else if strEndsWith name ".json" then .jsonVal (.dict [])
  else if strEndsWith name ".txt" then .text ""
  else c

/-- `clear_json_files` over the whole `json/` directory (modelled as a list
of name-content pairs): every file is rewritten per `clearFileContent`, and
the `session_active.txt` marker is removed afterwards. -/
def clear_json_files (files : List (String × FileContent)) :
    List (String × FileContent) :=
  (files.map fun p => (p.1, clearFileContent p.1 p.2)).filter
    fun p => decide (p.1 ≠ "session_active.txt")

/-- Observer: is the file content exactly the empty JSON object `{}`? -/
def isEmptyObjFile : FileContent → Bool
  | .jsonVal (.dict []) => true
  | _ => false

/-! ## Concrete sample data for witnesses and counterexamples -/

/-- A message authored by the bot user `"B"`. -/
def sampleMsg1 : Msg := { text := "hi", user := "B", ts := some 1 }

/-- A message with a missing/empty `ts` field. -/
def sampleMsg2 : Msg := { text := "yo", user := "u", ts := none }

/-- An ordinary user message. -/
def sampleMsg3 : Msg := { text := "t", user := "u", ts := some 2 }

/-- A second ordinary user message, newer than `sampleMsg3`. -/
def sampleMsg4 : Msg := { text := "s", user := "u", ts := some 3 }

/-! ## Association-list (ordered dict) lemmas -/

theorem keysQ_upsert (k : ℚ) (v : Msg) (m : List (ℚ × Msg)) :
    keysQ (upsert k v m) = if k ∈ keysQ m then keysQ m else keysQ m ++ [k] := by
  induction m with
  | nil => simp [upsert, keysQ]
  | cons p rest ih =>
    obtain ⟨k', v'⟩ := p
    by_cases hk : k' = k
    · subst hk
      simp [upsert, keysQ]
    · rcases Decidable.em (k ∈ keysQ rest) with hmem | hmem
      · simp only [upsert, if_neg hk, keysQ, List.map_cons]
        rw [keysQ] at ih
        have hmem' : k ∈ List.map Prod.fst rest := hmem
        rw [ih, if_pos hmem, if_pos (List.mem_cons_of_mem _ hmem')]
        rw [keysQ]
      · simp only [upsert, if_neg hk, keysQ, List.map_cons]
        rw [keysQ] at ih
        have hmem' : k ∉ List.map Prod.fst rest := hmem
        have hne : k ∉ k' :: List.map Prod.fst rest := by
          intro hc
          rcases List.mem_cons.mp hc with hc | hc
          · exact hk hc.symm
          · exact hmem' hc
        rw [ih, if_neg hmem, if_neg hne, List.cons_append, keysQ]

theorem nodup_keysQ_upsert (k : ℚ) (v : Msg) (m : List (ℚ × Msg))
    (h : (keysQ m).Nodup) : (keysQ (upsert k v m)).Nodup := by
  rw [keysQ_upsert]
  split
  · exact h
  · next hmem => simpa [List.nodup_append] using ⟨h, hmem⟩

theorem lookupQ_upsert (k k' : ℚ) (v : Msg) (m : List (ℚ × Msg)) :
    lookupQ k' (upsert k v m) = if k = k' then some v else lookupQ k' m := by
  induction m with
  | nil => simp [upsert, lookupQ]
  | cons p rest ih =>
    obtain ⟨k₀, v₀⟩ := p
    by_cases hk : k₀ = k
    · subst hk
      by_cases hk' : k₀ = k'
      · subst hk'
        simp [upsert, lookupQ]
      · simp [upsert, lookupQ, hk']
    · by_cases hk' : k₀ = k'
      · subst hk'
        have : ¬ k = k₀ := fun h => hk h.symm
        simp [upsert, hk, lookupQ, this]
      · simp [upsert, hk, lookupQ, hk', ih]

theorem mem_upsert (k k' : ℚ) (v v' : Msg) (m : List (ℚ × Msg))
    (h : (k', v') ∈ upsert k v m) : (k' = k ∧ v' = v) ∨ (k', v') ∈ m := by
  induction m with
  | nil =>
    simp only [upsert, List.mem_singleton, Prod.mk.injEq] at h
    exact Or.inl ⟨h.1, h.2⟩
  | cons p rest ih =>
    obtain ⟨k₀, v₀⟩ := p
    by_cases hk : k₀ = k
    · subst hk
      simp only [upsert, if_true, List.mem_cons, Prod.mk.injEq] at h
      rcases h with ⟨h1, h2⟩ | h
      · exact Or.inl ⟨h1, h2⟩
      · exact Or.inr (List.mem_cons_of_mem _ h)
    · simp only [upsert, if_neg hk, List.mem_cons] at h
      rcases h with h | h
      · exact Or.inr (List.mem_cons.mpr (Or.inl h))
      · rcases ih h with h' | h'
        · exact Or.inl h'
        · exact Or.inr (List.mem_cons_of_mem _ h')

theorem mem_upsert_self (k : ℚ) (v : Msg) (m : List (ℚ × Msg)) :
    (k, v) ∈ upsert k v m := by
  induction m with
  | nil => simp [upsert]
  | cons p rest ih =>
    obtain ⟨k₀, v₀⟩ := p
    by_cases hk : k₀ = k
    · subst hk
      simp [upsert]
    · simp only [upsert, if_neg hk]
      exact List.mem_cons_of_mem _ ih

theorem mem_buildMap (L : List Msg) (m0 : List (ℚ × Msg)) (k : ℚ) (v : Msg)
    (h : (k, v) ∈ buildMap L m0) :
    (v ∈ L ∧ v.ts = some k) ∨ (k, v) ∈ m0 := by
  induction L generalizing m0 with
  | nil => exact Or.inr h
  | cons x rest ih =>
    rw [buildMap, List.foldl_cons] at h
    rcases hx : x.ts with _ | kx
    · rw [hx] at h
      rcases ih _ h with h' | h'
      · exact Or.inl ⟨List.mem_cons_of_mem _ h'.1, h'.2⟩
      · exact Or.inr h'
    · rw [hx] at h
      rcases ih _ h with h' | h'
      · exact Or.inl ⟨List.mem_cons_of_mem _ h'.1, h'.2⟩
      · rcases mem_upsert _ _ _ _ _ h' with ⟨hk, hv⟩ | h''
        · subst hv
          exact Or.inl ⟨List.mem_cons_self _ _, by rw [hx, hk]⟩
        · exact Or.inr h''

theorem nodup_keysQ_buildMap (L : List Msg) (m0 : List (ℚ × Msg))
    (h : (keysQ m0).Nodup) : (keysQ (buildMap L m0)).Nodup := by
  induction L generalizing m0 with
  | nil => exact h
  | cons x rest ih =>
    rw [buildMap, List.foldl_cons]
    rcases hx : x.ts with _ | kx
    · exact ih _ h
    · exact ih _ (nodup_keysQ_upsert _ _ _ h)

theorem lookupQ_congr_buildMap (L : List Msg) (m1 m2 : List (ℚ × Msg))
    (h : ∀ k, lookupQ k m1 = lookupQ k m2) :
    ∀ k, lookupQ k (buildMap L m1) = lookupQ k (buildMap L m2) := by
  induction L generalizing m1 m2 with
  | nil => exact h
  | cons x rest ih =>
    intro k
    rw [buildMap, List.foldl_cons, buildMap, List.foldl_cons]
    rcases hx : x.ts with _ | kx
    · exact ih _ _ h k
    · refine ih _ _ (fun k' => ?_) k
      rw [lookupQ_upsert, lookupQ_upsert]
      split
      · rfl
      · exact h k'

theorem lookupQ_some_mem (k : ℚ) (v : Msg) (m : List (ℚ × Msg))
    (h : lookupQ k m = some v) : (k, v) ∈ m := by
  induction m with
  | nil => simp [lookupQ] at h
  | cons p rest ih =>
    obtain ⟨k₀, v₀⟩ := p
    by_cases hk : k₀ = k
    · subst hk
      rw [lookupQ, if_pos rfl] at h
      have : v₀ = v := Option.some.inj h
      subst this
      exact List.mem_cons_self _ _
    · rw [lookupQ, if_neg hk] at h
      exact List.mem_cons_of_mem _ (ih h)

theorem mem_lookupQ_some (k : ℚ) (v : Msg) (m : List (ℚ × Msg))
    (hnd : (keysQ m).Nodup) (h : (k, v) ∈ m) : lookupQ k m = some v := by
  induction m with
  | nil => simp at h
  | cons p rest ih =>
    obtain ⟨k₀, v₀⟩ := p
    rw [keysQ, List.map_cons, List.nodup_cons] at hnd
    rcases List.mem_cons.mp h with h' | h'
    · have hk0 : k = k₀ := congrArg Prod.fst h'
      have hv0 : v = v₀ := congrArg Prod.snd h'
      subst hk0
      subst hv0
      rw [lookupQ, if_pos rfl]
    · have hk : k₀ ≠ k := by
        intro hEq
        subst hEq
        exact hnd.1 (by simpa [keysQ] using List.mem_map_of_mem Prod.fst h')
      rw [lookupQ, if_neg hk]
      exact ih hnd.2 h'

theorem lookupQ_eq_none_iff (k : ℚ) (m : List (ℚ × Msg)) :
    lookupQ k m = none ↔ k ∉ keysQ m := by
  induction m with
  | nil => simp [lookupQ, keysQ]
  | cons p rest ih =>
    obtain ⟨k₀, v₀⟩ := p
    by_cases hk : k₀ = k
    · subst hk
      simp [lookupQ, keysQ]
    · simp [lookupQ, hk, keysQ, ih, Ne.symm hk]

theorem findLastTs_some_mem (k : ℚ) (L : List Msg) (v : Msg)
    (h : findLastTs k L = some v) : v ∈ L ∧ v.ts = some k := by
  induction L with
  | nil => simp [findLastTs] at h
  | cons x rest ih =>
    rw [findLastTs] at h
    rcases hr : findLastTs k rest with _ | w
    · rw [hr] at h
      by_cases hx : x.ts = some k
      · rw [if_pos hx] at h
        have : x = v := Option.some.inj h
        subst this
        exact ⟨List.mem_cons_self _ _, hx⟩
      · rw [if_neg hx] at h
        exact absurd h (by simp)
    · rw [hr] at h
      have : w = v := Option.some.inj h
      subst this
      obtain ⟨hm, hts⟩ := ih hr
      exact ⟨List.mem_cons_of_mem _ hm, hts⟩

theorem findLastTs_eq_none_iff (k : ℚ) (L : List Msg) :
    findLastTs k L = none ↔ ∀ v ∈ L, v.ts ≠ some k := by
  induction L with
  | nil => simp [findLastTs]
  | cons x rest ih =>
    rw [findLastTs]
    rcases hr : findLastTs k rest with _ | v
    · rw [hr] at ih
      simp only [true_iff] at ih
      by_cases hx : x.ts = some k
      · simp only [if_pos hx]
        constructor
        · intro hc
          exact absurd hc (by simp)
        · intro hall
          exact absurd hx (hall x (List.mem_cons_self _ _))
      · simp only [if_neg hx]
        constructor
        · intro _ v hv
          rcases List.mem_cons.mp hv with h | h
          · rw [h]; exact hx
          · exact ih v h
        · intro _; trivial
    · constructor
      · intro hc
        exact absurd hc (by simp)
      · intro hall
        obtain ⟨hv, hts⟩ := findLastTs_some_mem k rest v hr
        exact absurd hts (hall v (List.mem_cons_of_mem _ hv))

theorem lookupQ_buildMap (L : List Msg) (m0 : List (ℚ × Msg)) (k : ℚ) :
    lookupQ k (buildMap L m0) =
      match findLastTs k L with
      | some v => some v
      | none => lookupQ k m0 := by
  induction L generalizing m0 with
  | nil => rfl
  | cons x rest ih =>
    rw [buildMap, List.foldl_cons]
    rcases hx : x.ts with _ | kx
    · rw [findLastTs]
      rcases hr : findLastTs k rest with _ | w
      · have := ih m0
        rw [buildMap] at this
        rw [this, hr, hx]
        simp
      · have := ih m0
        rw [buildMap] at this
        rw [this, hr]
    · rw [findLastTs]
      rcases hr : findLastTs k rest with _ | w
      · have := ih (upsert kx x m0)
        rw [buildMap] at this
        rw [this, hr, lookupQ_upsert, hx]
        by_cases hkk : kx = k
        · subst hkk
          simp
        · have : ¬ (some kx = some k) := fun hc => hkk (Option.some.inj hc)
          simp [hkk, this]
      · have := ih (upsert kx x m0)
        rw [buildMap] at this
        rw [this, hr]

theorem buildMap_canon (L : List Msg) (m0 : List (ℚ × Msg))
    (h0 : ∀ p ∈ m0, (Prod.snd p).ts = some (Prod.fst p)) :
    ∀ p ∈ buildMap L m0, (Prod.snd p).ts = some (Prod.fst p) := by
  intro p hp
  obtain ⟨k, v⟩ := p
  rcases mem_buildMap L m0 k v hp with ⟨_, hts⟩ | hmem
  · exact hts
  · exact h0 (k, v) hmem

theorem assoc_perm_of_lookup_eq (m1 m2 : List (ℚ × Msg))
    (h1 : (keysQ m1).Nodup) (h2 : (keysQ m2).Nodup)
    (h : ∀ k, lookupQ k m1 = lookupQ k m2) : m1.Perm m2 := by
  rw [List.perm_ext_iff_of_nodup (List.Nodup.of_map Prod.fst h1)
        (List.Nodup.of_map Prod.fst h2)]
  intro p
  obtain ⟨k, v⟩ := p
  constructor
  · intro hm
    exact lookupQ_some_mem k v m2 ((h k).symm.trans (mem_lookupQ_some k v m1 h1 hm))
  · intro hm
    exact lookupQ_some_mem k v m1 ((h k).trans (mem_lookupQ_some k v m2 h2 hm))

/-- Rebuilding the dict from any permutation of its value list (all of whose
values carry their key in their `ts` field) reproduces the dict up to lookup
equality. -/
theorem rebuild_lookup (m1 : List (ℚ × Msg)) (S : List Msg)
    (hperm : S.Perm (m1.map Prod.snd)) (hnd : (keysQ m1).Nodup)
    (hcanon : ∀ p ∈ m1, (Prod.snd p).ts = some (Prod.fst p)) :
    ∀ k, lookupQ k (buildMap S []) = lookupQ k m1 := by
  intro k
  rw [lookupQ_buildMap]
  rcases hf : findLastTs k S with _ | v
  · rw [findLastTs_eq_none_iff] at hf
    rcases hl : lookupQ k m1 with _ | w
    · rfl
    · exfalso
      have hmem : (k, w) ∈ m1 := lookupQ_some_mem k w m1 hl
      have hw : w ∈ m1.map Prod.snd := List.mem_map_of_mem Prod.snd hmem
      have hwS : w ∈ S := (hperm.mem_iff).mpr hw
      exact hf w hwS (hcanon (k, w) hmem)
  · obtain ⟨hvS, hts⟩ := findLastTs_some_mem k S v hf
    have hv : v ∈ m1.map Prod.snd := (hperm.mem_iff).mp hvS
    obtain ⟨p, hp, hpv⟩ := List.mem_map.mp hv
    obtain ⟨k', v'⟩ := p
    have hv2 : v' = v := hpv
    subst hv2
    have hk2 : some k' = some k := by rw [← hcanon (k', v') hp]; exact hts
    have hkk : k' = k := Option.some.inj hk2
    subst hkk
    exact (mem_lookupQ_some k' v' m1 hnd hp).symm

theorem mergeSort_tsKey_sorted (L : List Msg) :
    List.Pairwise (fun a b => tsKey b ≤ tsKey a)
      (L.mergeSort (fun a b => decide (tsKey b ≤ tsKey a))) := by
  have h : (L.mergeSort (fun a b => decide (tsKey b ≤ tsKey a))).Pairwise
      (fun a b => decide (tsKey b ≤ tsKey a)) :=
    List.sorted_mergeSort
      (fun a b c hab hbc => by
        simp only [decide_eq_true_eq] at *
        exact le_trans hbc hab)
      (fun a b => by
        simp only [Bool.or_eq_true, decide_eq_true_eq]
        exact le_total (tsKey b) (tsKey a)) L
  exact h.imp (fun hab => of_decide_eq_true hab)

/-- The stored list produced by one `save_messages` call, together with the
dict it was sorted from. -/
theorem save_messages_eq (bot : String) (incoming existing : List Msg) :
    (save_messages bot incoming existing).1 =
      ((buildMap (incoming.filter (fun m => m.user ≠ bot))
          (buildMap existing [])).map Prod.snd).mergeSort
        (fun a b => decide (tsKey b ≤ tsKey a)) := rfl

theorem save_messages_sorted (bot : String) (incoming existing : List Msg) :
    List.Pairwise (fun a b => tsKey b ≤ tsKey a)
      (save_messages bot incoming existing).1 := by
  rw [save_messages_eq]
  exact mergeSort_tsKey_sorted _

theorem save_messages_ts_nodup (bot : String) (incoming existing : List Msg) :
    ((save_messages bot incoming existing).1.map Msg.ts).Nodup := by
  rw [save_messages_eq]
  set X := incoming.filter (fun m => m.user ≠ bot) with hX
  set map1 := buildMap X (buildMap existing []) with hmap1
  have hnd1 : (keysQ map1).Nodup :=
    nodup_keysQ_buildMap X (buildMap existing [])
      (nodup_keysQ_buildMap existing [] (by simp [keysQ]))
  have hcanon1 : ∀ p ∈ map1, (Prod.snd p).ts = some (Prod.fst p) :=
    buildMap_canon X (buildMap existing []) (buildMap_canon existing [] (by simp))
  have hperm : ((map1.map Prod.snd).mergeSort
        (fun a b => decide (tsKey b ≤ tsKey a))).Perm (map1.map Prod.snd) :=
    List.mergeSort_perm _ _
  have hvals : (map1.map Prod.snd).map Msg.ts = (map1.map Prod.fst).map some := by
    rw [List.map_map, List.map_map]
    exact List.map_congr_left (fun p hp => hcanon1 p hp)
  have hnod : ((map1.map Prod.snd).map Msg.ts).Nodup := by
    rw [hvals]
    exact List.Nodup.map (fun a b hab => Option.some.inj hab) hnd1
  exact ((hperm.map Msg.ts).symm).nodup hnod

theorem save_messages_idempotent (bot : String) (incoming existing : List Msg) :
    ((save_messages bot incoming (save_messages bot incoming existing).1).1).Perm
      (save_messages bot incoming existing).1 := by
  set X := incoming.filter (fun m => m.user ≠ bot) with hX
  set map1 := buildMap X (buildMap existing []) with hmap1
  set stored := (map1.map Prod.snd).mergeSort
    (fun a b => decide (tsKey b ≤ tsKey a)) with hstored
  have hs1 : (save_messages bot incoming existing).1 = stored := rfl
  set map2 := buildMap X (buildMap stored []) with hmap2
  have hs2 : (save_messages bot incoming stored).1 =
      (map2.map Prod.snd).mergeSort (fun a b => decide (tsKey b ≤ tsKey a)) := rfl
  have hnd0 : (keysQ (buildMap existing [])).Nodup :=
    nodup_keysQ_buildMap existing [] (by simp [keysQ])
  have hnd1 : (keysQ map1).Nodup := nodup_keysQ_buildMap X _ hnd0
  have hcanon1 : ∀ p ∈ map1, (Prod.snd p).ts = some (Prod.fst p) :=
    buildMap_canon X (buildMap existing []) (buildMap_canon existing [] (by simp))
  have hpermS : stored.Perm (map1.map Prod.snd) := List.mergeSort_perm _ _
  have hSlook : ∀ k, lookupQ k (buildMap stored []) = lookupQ k map1 :=
    rebuild_lookup map1 stored hpermS hnd1 hcanon1
  have h2look : ∀ k, lookupQ k map2 = lookupQ k (buildMap X map1) :=
    lookupQ_congr_buildMap X _ _ hSlook
  have hover : ∀ k, lookupQ k (buildMap X map1) = lookupQ k map1 := by
    intro k
    rw [lookupQ_buildMap]
    rcases hf : findLastTs k X with _ | v
    · rfl
    · rw [hmap1, lookupQ_buildMap, hf]
  have h2look1 : ∀ k, lookupQ k map2 = lookupQ k map1 :=
    fun k => (h2look k).trans (hover k)
  have hndS : (keysQ (buildMap stored [])).Nodup :=
    nodup_keysQ_buildMap stored [] (by simp [keysQ])
  have hnd2 : (keysQ map2).Nodup := nodup_keysQ_buildMap X _ hndS
  have hmp : map2.Perm map1 := assoc_perm_of_lookup_eq map2 map1 hnd2 hnd1 h2look1
  rw [hs1, hs2]
  have h1 : ((map2.map Prod.snd).mergeSort
      (fun a b => decide (tsKey b ≤ tsKey a))).Perm (map2.map Prod.snd) :=
    List.mergeSort_perm _ _
  exact h1.trans ((hmp.map Prod.snd).trans hpermS.symm)

theorem save_messages_mem (bot : String) (incoming existing : List Msg) :
    ∀ m ∈ (save_messages bot incoming existing).1,
      m.ts.isSome = true ∧ (m ∈ existing ∨ (m ∈ incoming ∧ m.user ≠ bot)) := by
  intro m hm
  rw [save_messages_eq] at hm
  rw [List.mem_mergeSort] at hm
  obtain ⟨p, hp, hpm⟩ := List.mem_map.mp hm
  obtain ⟨k, v⟩ := p
  have hvm : v = m := hpm
  subst hvm
  rcases mem_buildMap _ _ _ _ hp with ⟨hX, hts⟩ | hE
  · obtain ⟨hin, hdec⟩ := List.mem_filter.mp hX
    refine ⟨by rw [hts]; rfl, Or.inr ⟨hin, ?_⟩⟩
    exact of_decide_eq_true hdec
  · rcases mem_buildMap _ _ _ _ hE with ⟨hex, hts⟩ | habs
    · exact ⟨by rw [hts]; rfl, Or.inl hex⟩
    · exact absurd habs (List.not_mem_nil _)

/-! ## Resolver lemmas -/

theorem resolveStep_snd (score : ProjRecord → ℚ) (acc : Option (String × String) × ℚ)
    (r : ProjRecord) : (resolveStep score acc r).2 = max acc.2 (score r) := by
  rw [resolveStep]
  rcases lt_or_ge acc.2 (score r) with h | h
  · rw [if_pos h, max_eq_right (le_of_lt h)]
  · rw [if_neg (not_lt.mpr h), max_eq_left h]

theorem resolve_foldl_snd (score : ProjRecord → ℚ) (ps : List ProjRecord) :
    ∀ acc : Option (String × String) × ℚ,
      (ps.foldl (resolveStep score) acc).2 =
        ps.foldl (fun a r => max a (score r)) acc.2 := by
  induction ps with
  | nil => intro acc; rfl
  | cons y ps ih =>
    intro acc
    rw [List.foldl_cons, List.foldl_cons, ih, resolveStep_snd]

theorem resolve_foldl_of_le (score : ProjRecord → ℚ) (ps : List ProjRecord) :
    ∀ acc : Option (String × String) × ℚ,
      (∀ r ∈ ps, score r ≤ acc.2) → ps.foldl (resolveStep score) acc = acc := by
  induction ps with
  | nil => intro acc _; rfl
  | cons y ps ih =>
    intro acc hle
    rw [List.foldl_cons]
    have hy : resolveStep score acc y = acc := by
      rw [resolveStep, if_neg (not_lt.mpr (hle y (List.mem_cons_self _ _)))]
    rw [hy]
    exact ih acc (fun r hr => hle r (List.mem_cons_of_mem _ hr))

theorem find?_congr_mem {α : Type} (p q : α → Bool) (l : List α)
    (h : ∀ x ∈ l, p x = q x) : l.find? p = l.find? q := by
  induction l with
  | nil => rfl
  | cons y l ih =>
    rw [List.find?_cons, List.find?_cons, h y (List.mem_cons_self _ _)]
    split
    · rfl
    · exact ih (fun x hx => h x (List.mem_cons_of_mem _ hx))

/-- The scan with strict `>` tracks the first record attaining the running
maximum, provided some record beats the seed. -/
theorem resolve_foldl_fst (score : ProjRecord → ℚ) (ps : List ProjRecord) :
    ∀ acc : Option (String × String) × ℚ,
      (∃ x ∈ ps, score x > acc.2) →
      ∃ r ∈ ps,
        score r = (ps.foldl (resolveStep score) acc).2
        ∧ (ps.foldl (resolveStep score) acc).1 = some (r.name, r.folder)
        ∧ (∀ x ∈ ps, score x ≤ score r)
        ∧ ps.find? (fun x => decide (score r ≤ score x)) = some r := by
  induction ps with
  | nil =>
    intro acc hex
    obtain ⟨x, hx, _⟩ := hex
    exact absurd hx (List.not_mem_nil _)
  | cons y ps ih =>
    intro acc hex
    rw [List.foldl_cons]
    by_cases hy : score y > acc.2
    · have hstep : resolveStep score acc y = (some (y.name, y.folder), score y) := by
        rw [resolveStep, if_pos hy]
      rw [hstep]
      by_cases hps : ∃ x ∈ ps, score x > score y
      · obtain ⟨r, hr, h2, h1, hle, hfind⟩ :=
          ih (some (y.name, y.folder), score y) (by simpa using hps)
        refine ⟨r, List.mem_cons_of_mem _ hr, h2, h1, ?_, ?_⟩
        · intro x hx
          rcases List.mem_cons.mp hx with hxy | hxp
          · obtain ⟨x0, hx0, hgt0⟩ := hps
            subst hxy
            exact le_of_lt (lt_of_lt_of_le hgt0 (hle x0 hx0))
          · exact hle x hxp
        · have hyr : ¬ (score r ≤ score y) := by
            obtain ⟨x0, hx0, hgt0⟩ := hps
            exact not_le.mpr (lt_of_lt_of_le hgt0 (hle x0 hx0))
          rw [List.find?_cons, decide_eq_false hyr]
          exact hfind
      · push_neg at hps
        have hall : ∀ r ∈ ps, score r ≤ (some (y.name, y.folder), score y).2 :=
          fun r hr => hps r hr
        rw [resolve_foldl_of_le score ps _ hall]
        refine ⟨y, List.mem_cons_self _ _, rfl, rfl, ?_, ?_⟩
        · intro x hx
          rcases List.mem_cons.mp hx with hxy | hxp
          · rw [hxy]
          · exact hps x hxp
        · rw [List.find?_cons, decide_eq_true (le_refl (score y))]
    · have hstep : resolveStep score acc y = acc := by
        rw [resolveStep, if_neg hy]
      rw [hstep]
      have hex' : ∃ x ∈ ps, score x > acc.2 := by
        obtain ⟨x, hx, hgt⟩ := hex
        rcases List.mem_cons.mp hx with hxy | hxp
        · subst hxy
          exact absurd hgt hy
        · exact ⟨x, hxp, hgt⟩
      obtain ⟨r, hr, h2, h1, hle, hfind⟩ := ih acc hex'
      have hyr : score y < score r := by
        obtain ⟨x0, hx0, hgt0⟩ := hex'
        exact lt_of_le_of_lt (not_lt.mp hy) (lt_of_lt_of_le hgt0 (hle x0 hx0))
      refine ⟨r, List.mem_cons_of_mem _ hr, h2, h1, ?_, ?_⟩
      · intro x hx
        rcases List.mem_cons.mp hx with hxy | hxp
        · rw [hxy]; exact le_of_lt hyr
        · exact hle x hxp
      · rw [List.find?_cons, decide_eq_false (not_le.mpr hyr)]
        exact hfind

theorem foldl_max_cases (score : ProjRecord → ℚ) (ps : List ProjRecord) :
    ∀ a : ℚ, (∃ r ∈ ps, ps.foldl (fun acc r => max acc (score r)) a = score r)
      ∨ ps.foldl (fun acc r => max acc (score r)) a = a := by
  induction ps with
  | nil => intro a; exact Or.inr rfl
  | cons y ps ih =>
    intro a
    rw [List.foldl_cons]
    rcases ih (max a (score y)) with ⟨r, hr, heq⟩ | heq
    · exact Or.inl ⟨r, List.mem_cons_of_mem _ hr, heq⟩
    · rcases max_choice a (score y) with hc | hc
      · exact Or.inr (heq.trans hc)
      · exact Or.inl ⟨y, List.mem_cons_self _ _, heq.trans hc⟩

theorem le_foldl_max (score : ProjRecord → ℚ) (ps : List ProjRecord) :
    ∀ a : ℚ, (a ≤ ps.foldl (fun acc r => max acc (score r)) a)
      ∧ ∀ r ∈ ps, score r ≤ ps.foldl (fun acc r => max acc (score r)) a := by
  induction ps with
  | nil => intro a; exact ⟨le_refl a, by simp⟩
  | cons y ps ih =>
    intro a
    rw [List.foldl_cons]
    obtain ⟨hseed, hmem⟩ := ih (max a (score y))
    refine ⟨le_trans (le_max_left _ _) hseed, ?_⟩
    intro r hr
    rcases List.mem_cons.mp hr with hry | hrp
    · rw [hry]
      exact le_trans (le_max_right _ _) hseed
    · exact hmem r hrp

theorem le_maxScore (score : ProjRecord → ℚ) (ps : List ProjRecord) :
    ∀ r ∈ ps, score r ≤ maxScore score ps :=
  (le_foldl_max score ps (-1)).2

theorem maxScore_attained (score : ProjRecord → ℚ) (ps : List ProjRecord)
    (hne : ps ≠ []) (hb : ∀ r ∈ ps, -1 ≤ score r) :
    ∃ r ∈ ps, score r = maxScore score ps := by
  rcases foldl_max_cases score ps (-1) with ⟨r, hr, heq⟩ | heq
  · exact ⟨r, hr, heq.symm⟩
  · obtain ⟨r0, hr0⟩ := List.exists_mem_of_ne_nil ps hne
    refine ⟨r0, hr0, le_antisymm (le_maxScore score ps r0 hr0) ?_⟩
    rw [maxScore, heq]
    exact hb r0 hr0

/-! ## Scheduler transition-system lemmas -/

theorem count_set_swap (l : List Phase) (i : ℕ) (a b : Phase)
    (h : l.get? i = some a) (hne : a ≠ b) :
    (l.set i b).count b = l.count b + 1
    ∧ (l.set i b).count a + 1 = l.count a
    ∧ ∀ c, c ≠ a → c ≠ b → (l.set i b).count c = l.count c := by
  induction l generalizing i with
  | nil => simp [List.get?] at h
  | cons x l ih =>
    rcases i with _ | i
    · have hx : x = a := by simpa [List.get?] using h
      subst hx
      refine ⟨?_, ?_, ?_⟩
      · rw [List.set]
        rw [List.count_cons_self, List.count_cons_of_ne (Ne.symm hne)]
      · rw [List.set]
        rw [List.count_cons_of_ne hne, List.count_cons_self]
      · intro c hca hcb
        rw [List.set]
        rw [List.count_cons_of_ne hcb, List.count_cons_of_ne hca]
    · have h' : l.get? i = some a := by simpa [List.get?] using h
      obtain ⟨ih1, ih2, ih3⟩ := ih i h'
      refine ⟨?_, ?_, ?_⟩
      · rw [List.set]
        by_cases hxb : b = x
        · subst hxb
          rw [List.count_cons_self, List.count_cons_self, ih1]
        · rw [List.count_cons_of_ne hxb, List.count_cons_of_ne hxb, ih1]
      · rw [List.set]
        by_cases hxa : a = x
        · subst hxa
          rw [List.count_cons_self, List.count_cons_self]
          omega
        · rw [List.count_cons_of_ne hxa, List.count_cons_of_ne hxa, ih2]
      · intro c hca hcb
        rw [List.set]
        by_cases hxc : c = x
        · subst hxc
          rw [List.count_cons_self, List.count_cons_self, ih3 c hca hcb]
        · rw [List.count_cons_of_ne hxc, List.count_cons_of_ne hxc,
            ih3 c hca hcb]

theorem count_pos_of_get? (l : List Phase) (i : ℕ) (a : Phase)
    (h : l.get? i = some a) : 0 < l.count a := by
  have hm : a ∈ l := List.get?_mem h
  exact List.count_pos_iff.mpr hm

theorem schedStep_inv (s s' : Sched) (a : SchedAct)
    (hstep : schedStep s a = some s')
    (hpoll : ∀ sm nw, a = .tryStart sm nw → spawnedCount s = 0)
    (hinv : SchedInv s) : SchedInv s' := by
  obtain ⟨hfl, hrun⟩ := hinv
  cases a with
  | tryStart sm nw =>
    have hsp : spawnedCount s = 0 := hpoll sm nw rfl
    rw [schedStep] at hstep
    by_cases hg : (sm && nw && !s.pipelineRunning) = true
    · rw [if_pos hg] at hstep
      have hrf : s.pipelineRunning = false := by
        rcases Bool.and_eq_true_iff.mp hg with ⟨_, hnr⟩
        simpa using hnr
      have hacq : s.threads.count .acquired = 0 := by
        by_contra hc
        have : 0 < s.threads.count .acquired := Nat.pos_of_ne_zero hc
        rw [← hrun] at this
        rw [hrf] at this
        exact absurd this (by simp)
      have hs' : s' = { s with threads := s.threads ++ [.spawned] } :=
        (Option.some.inj hstep).symm
      subst hs'
      constructor
      · rw [inFlight]
        show (s.threads ++ [Phase.spawned]).count Phase.spawned
          + (s.threads ++ [Phase.spawned]).count Phase.acquired ≤ 1
        rw [List.count_append, List.count_append]
        have h1 : ([Phase.spawned] : List Phase).count .spawned = 1 := rfl
        have h2 : ([Phase.spawned] : List Phase).count .acquired = 0 := rfl
        rw [h1, h2]
        rw [spawnedCount] at hsp
        omega
      · show s.pipelineRunning = true ↔ 0 < (s.threads ++ [Phase.spawned]).count Phase.acquired
        rw [List.count_append]
        have h2 : ([Phase.spawned] : List Phase).count .acquired = 0 := rfl
        rw [h2, Nat.add_zero]
        exact hrun
    · rw [if_neg hg] at hstep
      have hs' : s' = s := (Option.some.inj hstep).symm
      subst hs'
      exact ⟨hfl, hrun⟩
  | acquire i =>
    rw [schedStep] at hstep
    rcases hg : s.threads.get? i with _ | ph
    · rw [hg] at hstep
      exact absurd hstep (by simp)
    · rw [hg] at hstep
      cases ph with
      | spawned =>
        have hs' : s' = { pipelineRunning := true, threads := s.threads.set i .acquired } :=
          (Option.some.inj hstep).symm
        subst hs'
        obtain ⟨hc1, hc2, _⟩ := count_set_swap s.threads i .spawned .acquired hg (by simp)
        have hpos : 0 < s.threads.count .spawned := count_pos_of_get? _ _ _ hg
        constructor
        · rw [inFlight]
          show (s.threads.set i Phase.acquired).count Phase.spawned
            + (s.threads.set i Phase.acquired).count Phase.acquired ≤ 1
          rw [inFlight] at hfl
          omega
        · show true = true ↔ 0 < (s.threads.set i Phase.acquired).count Phase.acquired
          constructor
          · intro _
            rw [hc1]
            omega
          · intro _
            rfl
      | acquired => exact absurd hstep (by simp)
      | finished => exact absurd hstep (by simp)
  | finish i =>
    rw [schedStep] at hstep
    rcases hg : s.threads.get? i with _ | ph
    · rw [hg] at hstep
      exact absurd hstep (by simp)
    · rw [hg] at hstep
      cases ph with
      | spawned => exact absurd hstep (by simp)
      | acquired =>
        have hs' : s' = { pipelineRunning := false, threads := s.threads.set i .finished } :=
          (Option.some.inj hstep).symm
        subst hs'
        obtain ⟨_, hc2, hc3⟩ := count_set_swap s.threads i .acquired .finished hg (by simp)
        have hpos : 0 < s.threads.count .acquired := count_pos_of_get? _ _ _ hg
        have hcsp : (s.threads.set i .finished).count .spawned = s.threads.count .spawned :=
          hc3 .spawned (by simp) (by simp)
        constructor
        · rw [inFlight]
          show (s.threads.set i Phase.finished).count Phase.spawned
            + (s.threads.set i Phase.finished).count Phase.acquired ≤ 1
          rw [inFlight] at hfl
          omega
        · constructor
          · intro hc
            exact absurd hc (by simp)
          · intro hc
            have hc2p : 0 < (s.threads.set i Phase.finished).count Phase.acquired := hc
            rw [inFlight] at hfl
            exact absurd hc2p (by omega)
      | finished => exact absurd hstep (by simp)

theorem csteps_inv (s : Sched) (acts : List SchedAct) (s' : Sched)
    (h : CSteps s acts s') (hinv : SchedInv s) : SchedInv s' := by
  induction h with
  | nil _ => exact hinv
  | cons s1 s2 s3 a acts hstep hpoll _ ih =>
    exact ih (schedStep_inv s1 s2 a hstep hpoll hinv)

/-! ## Swap, pipeline and watermark helper lemmas -/

theorem swapRun_cons (s s' : SwapSt) (a : SwapAct) (acts : List SwapAct)
    (h : swapStep s a = some s') : swapRun s (a :: acts) = swapRun s' acts := by
  rw [swapRun, h]

theorem swap_appends (ms : List Msg) : ∀ s : SwapSt,
    swapRun s (ms.map SwapAct.append) = some { s with pending := s.pending ++ ms } := by
  induction ms with
  | nil =>
    intro s
    show some s = some { s with pending := s.pending ++ [] }
    rw [List.append_nil]
  | cons m ms ih =>
    intro s
    have hstep : swapStep s (SwapAct.append m) =
        some { s with pending := s.pending ++ [m] } := rfl
    rw [List.map_cons,
      swapRun_cons s { s with pending := s.pending ++ [m] } _ _ hstep, ih]
    rw [List.append_assoc]
    rfl

theorem run_pipeline_watermark (snapTs : ℚ) (fx : PipeEffects) (st : Files) :
    (run_pipeline snapTs fx st).lastProcessedTs =
      if fx.extractRaises then st.lastProcessedTs else snapTs := by
  obtain ⟨ex, dep, mt⟩ := fx
  cases ex
  · rfl
  · show (if st.messages.isEmpty then st
      else { st with messages := [] }).lastProcessedTs = st.lastProcessedTs
    split
    · rfl
    · rfl

theorem applyRun_mono (st : Files) (e : RunEvent) :
    st.lastProcessedTs ≤ (applyRun st e).lastProcessedTs := by
  rw [applyRun]
  split
  · next hcond =>
    obtain ⟨_, hts⟩ := Bool.and_eq_true_iff.mp hcond
    have hlt : st.lastProcessedTs < e.latestTs := of_decide_eq_true hts
    rw [run_pipeline_watermark]
    split
    · exact le_refl _
    · exact le_of_lt hlt
  · exact le_refl _

theorem foldl_applyRun_mono (events : List RunEvent) : ∀ st : Files,
    st.lastProcessedTs ≤ (events.foldl applyRun st).lastProcessedTs := by
  induction events with
  | nil => intro st; exact le_refl _
  | cons e es ih =>
    intro st
    rw [List.foldl_cons]
    exact le_trans (applyRun_mono st e) (ih _)

theorem save_messages_single : save_messages "B" [sampleMsg3] [] = ([sampleMsg3], some 2) := by
  have h1 : (save_messages "B" [sampleMsg3] []).1 = [sampleMsg3] := by
    rw [save_messages_eq]
    have hb : buildMap ([sampleMsg3].filter (fun m => m.user ≠ "B"))
        (buildMap [] []) = [((2 : ℚ), sampleMsg3)] := rfl
    rw [hb]
    simp
  have h2 : (save_messages "B" [sampleMsg3] []).2 =
      ((save_messages "B" [sampleMsg3] []).1).head?.map tsKey := rfl
  rw [Prod.ext_iff]
  refine ⟨h1, ?_⟩
  rw [h2, h1]
  rfl

/-! ## Claim theorems -/

/-- Claim C7: `save_messages` (Append) is idempotent — appending the same
incoming messages twice yields the same stored set as appending them once —
the stored set never contains two messages with the same id (`ts`), and
after every append the stored messages are in descending timestamp order. -/
theorem append_idempotent_dedup_sorted (bot : String) (incoming existing : List Msg) :
    ((save_messages bot incoming (save_messages bot incoming existing).1).1).Perm
        (save_messages bot incoming existing).1
    ∧ ((save_messages bot incoming existing).1.map Msg.ts).Nodup
    ∧ List.Pairwise (fun a b => tsKey b ≤ tsKey a)
        (save_messages bot incoming existing).1 :=
  ⟨save_messages_idempotent bot incoming existing,
   save_messages_ts_nodup bot incoming existing,
   save_messages_sorted bot incoming existing⟩

/-- Claim C10: every message stored by `save_messages` has a non-empty `ts`,
and every stored message either was already stored or is an incoming message
not authored by the configured bot user; concretely, an incoming pair
consisting of a bot-authored message and a `ts`-less message produces an
empty store (count 0 from input count 2) with no error reported. -/
theorem append_silently_drops (bot : String) (incoming existing : List Msg) :
    (∀ m ∈ (save_messages bot incoming existing).1,
        m.ts.isSome = true ∧ (m ∈ existing ∨ (m ∈ incoming ∧ m.user ≠ bot)))
    ∧ (save_messages "B" [sampleMsg1, sampleMsg2] []).1.length = 0 := by
  refine ⟨save_messages_mem bot incoming existing, ?_⟩
  rw [save_messages_eq]
  have hb : buildMap ([sampleMsg1, sampleMsg2].filter (fun m => m.user ≠ "B"))
      (buildMap [] []) = [] := rfl
  rw [hb]
  simp

/-- Claim C5: on a non-empty record store with cosine-similarity scores (all
at least `-1`), `find_closest_project` returns the maximum similarity as its
score; its returned score bounds every record and is attained; if the
maximum reaches the threshold `0.2` (including exactly equal) the returned
folder is the folder of the first record attaining the maximum (strict `>`
tracking, first-seen wins ties) with a match reported, and otherwise no
match is reported, with the best score still returned. -/
theorem resolve_postcondition (score : ProjRecord → ℚ) (ps : List ProjRecord)
    (hne : ps ≠ []) (hb : ∀ r ∈ ps, -1 ≤ score r) :
    (find_closest_project score ps).2 = maxScore score ps
    ∧ (∀ r ∈ ps, score r ≤ maxScore score ps)
    ∧ (∃ r ∈ ps, score r = maxScore score ps)
    ∧ ((find_closest_project score ps).1.isSome = true ↔
        SIMILARITY_THRESHOLD ≤ maxScore score ps)
    ∧ (SIMILARITY_THRESHOLD ≤ maxScore score ps →
        (find_closest_project score ps).1 =
          (firstBest score ps).map ProjRecord.folder)
    ∧ (maxScore score ps < SIMILARITY_THRESHOLD →
        (find_closest_project score ps).1 = none) := by
  have hempty : ps.isEmpty = false := by
    rcases ps with _ | ⟨y, ps⟩
    · exact absurd rfl hne
    · rfl
  have hsnd : (ps.foldl (resolveStep score) (none, -1)).2 = maxScore score ps := by
    rw [resolve_foldl_snd]
    rfl
  have hfc2 : (find_closest_project score ps).2 = maxScore score ps := by
    rw [find_closest_project, hempty]
    simp only [Bool.false_eq_true, if_false]
    split
    · exact hsnd
    · exact hsnd
  have hfst : SIMILARITY_THRESHOLD ≤ maxScore score ps →
      (ps.foldl (resolveStep score) (none, -1)).1 =
        (firstBest score ps).map (fun r => (r.name, r.folder)) := by
    intro hth
    have hex : ∃ x ∈ ps, score x > ((none : Option (String × String)), (-1 : ℚ)).2 := by
      obtain ⟨r, hr, hattain⟩ := maxScore_attained score ps hne hb
      refine ⟨r, hr, ?_⟩
      show score r > -1
      rw [hattain]
      calc (-1 : ℚ) < 1/5 := by norm_num
        _ ≤ maxScore score ps := hth
    obtain ⟨r, hr, h2, h1, hle, hfind⟩ := resolve_foldl_fst score ps _ hex
    have hrmax : score r = maxScore score ps := by rw [h2, hsnd]
    have hfb : firstBest score ps = some r := by
      rw [firstBest, ← hfind]
      refine find?_congr_mem _ _ ps (fun x hx => ?_)
      by_cases hxe : score x = maxScore score ps
      · rw [decide_eq_true hxe, decide_eq_true (by rw [hrmax, hxe])]
      · rw [decide_eq_false hxe, decide_eq_false ?_]
        intro hcle
        exact hxe (le_antisymm (le_maxScore score ps x hx) (by rw [← hrmax]; exact hcle))
    rw [h1, hfb]
    rfl
  refine ⟨hfc2, le_maxScore score ps, maxScore_attained score ps hne hb, ?_, ?_, ?_⟩
  · constructor
    · intro hsome
      by_contra hlt
      push_neg at hlt
      have : (find_closest_project score ps).1 = none := by
        rw [find_closest_project, hempty]
        simp only [Bool.false_eq_true, if_false]
        rw [if_neg (by rw [hsnd]; exact not_le.mpr hlt)]
      rw [this] at hsome
      exact absurd hsome (by simp)
    · intro hth
      have : (find_closest_project score ps).1 =
          (firstBest score ps).map ProjRecord.folder := by
        rw [find_closest_project, hempty]
        simp only [Bool.false_eq_true, if_false]
        rw [if_pos (by rw [hsnd]; exact hth)]
        show ((ps.foldl (resolveStep score) (none, -1)).1.map Prod.snd) =
          (firstBest score ps).map ProjRecord.folder
        rw [hfst hth]
        rcases firstBest score ps with _ | r
        · rfl
        · rfl
      rw [this]
      obtain ⟨r, hr, hattain⟩ := maxScore_attained score ps hne hb
      have hfb : (firstBest score ps).isSome = true := by
        rw [firstBest]
        rw [List.find?_isSome]
        exact ⟨r, hr, decide_eq_true hattain⟩
      rcases hfb' : firstBest score ps with _ | r'
      · rw [hfb'] at hfb
        exact absurd hfb (by simp)
      · simp
  · intro hth
    rw [find_closest_project, hempty]
    simp only [Bool.false_eq_true, if_false]
    rw [if_pos (by rw [hsnd]; exact hth)]
    show ((ps.foldl (resolveStep score) (none, -1)).1.map Prod.snd) =
      (firstBest score ps).map ProjRecord.folder
    rw [hfst hth]
    rcases firstBest score ps with _ | r
    · rfl
    · rfl
  · intro hlt
    rw [find_closest_project, hempty]
    simp only [Bool.false_eq_true, if_false]
    rw [if_neg (by rw [hsnd]; exact not_le.mpr hlt)]

/-- Witness for Claim C5 at a concrete input realizing the threshold
boundary: a single record whose similarity is exactly `0.2` is returned with
a match. -/
theorem resolve_postcondition_witness :
    (find_closest_project (fun _ => (1 : ℚ)/5)
        [{ name := "a", folder := "fa" }]).1 =
      (firstBest (fun _ => (1 : ℚ)/5) [{ name := "a", folder := "fa" }]).map
        ProjRecord.folder
    ∧ (find_closest_project (fun _ => (1 : ℚ)/5)
        [{ name := "a", folder := "fa" }]).1 = some "fa" := by
  have hth : SIMILARITY_THRESHOLD ≤
      maxScore (fun _ => (1 : ℚ)/5) [{ name := "a", folder := "fa" }] := by
    rw [SIMILARITY_THRESHOLD, maxScore]
    norm_num
  have h := resolve_postcondition (fun _ => (1 : ℚ)/5)
    [{ name := "a", folder := "fa" }] (by simp)
    (fun r hr => by norm_num)
  have hmax : maxScore (fun _ => (1 : ℚ)/5) [{ name := "a", folder := "fa" }] = 1/5 := by
    rw [maxScore, List.foldl_cons, List.foldl_nil]
    exact max_eq_right (by norm_num)
  have hfb : firstBest (fun _ => (1 : ℚ)/5) [{ name := "a", folder := "fa" }]
      = some { name := "a", folder := "fa" } := by
    rw [firstBest, List.find?_cons, decide_eq_true hmax.symm]
  refine ⟨h.2.2.2.2.1 hth, ?_⟩
  rw [h.2.2.2.2.1 hth, hfb]
  rfl

/-- Witness for Claim C10 at a concrete input: the single stored message of
a one-message append has a non-empty `ts` and is a non-bot incoming one. -/
theorem append_silently_drops_witness :
    sampleMsg3.ts.isSome = true
    ∧ (sampleMsg3 ∈ ([] : List Msg)
        ∨ (sampleMsg3 ∈ [sampleMsg3] ∧ sampleMsg3.user ≠ "B")) := by
  have hs : (save_messages "B" [sampleMsg3] []).1 = [sampleMsg3] := by
    rw [save_messages_eq]
    have hb : buildMap ([sampleMsg3].filter (fun m => m.user ≠ "B"))
        (buildMap [] []) = [((2 : ℚ), sampleMsg3)] := rfl
    rw [hb]
    simp
  exact (append_silently_drops "B" [sampleMsg3] []).1 sampleMsg3
    (by rw [hs]; exact List.mem_singleton_self _)

/-- Counterexample to Claim C1 as stated: the guard of
`_maybe_start_pipeline` reads `pipeline_running` in the poll thread while the
flag is assigned only inside the spawned `_run_pipeline` thread, so two start
attempts can both pass the guard before either spawned thread runs; both
then acquire the flag, leaving two runs in flight concurrently. -/
theorem single_flight_counterexample :
    schedRun schedInit
      [.tryStart true true, .tryStart true true, .acquire 0, .acquire 1] =
      some { pipelineRunning := true, threads := [Phase.acquired, Phase.acquired] }
    ∧ ({ pipelineRunning := true,
         threads := [Phase.acquired, Phase.acquired] } : Sched).threads.count
        Phase.acquired = 2 := ⟨rfl, rfl⟩

/-- Claim C1 (amended): the running-flag test and its assignment are not one
atomic compare-and-set (the test is in the poll thread, the assignment in
the spawned run thread); under the scheduling assumption that every spawned
run thread sets the flag before the next start attempt is evaluated — which
the 10-second poll interval is relied upon to provide — at most one run is
in flight at any reachable state, and a start attempt made while the flag is
set returns immediately with the state unchanged: no blocking, no queued
second run. -/
theorem single_flight_amended (acts : List SchedAct) (s : Sched)
    (h : CSteps schedInit acts s) :
    inFlight s ≤ 1
    ∧ s.threads.count Phase.acquired ≤ 1
    ∧ ∀ (s2 : Sched) (sm nw : Bool), s2.pipelineRunning = true →
        schedStep s2 (.tryStart sm nw) = some s2 := by
  have hinit : SchedInv schedInit := ⟨by decide, by decide⟩
  have hinv : SchedInv s := csteps_inv _ _ _ h hinit
  obtain ⟨hfl, _⟩ := hinv
  refine ⟨hfl, ?_, ?_⟩
  · rw [inFlight] at hfl
    omega
  · intro s2 sm nw hr
    rw [schedStep, hr]
    simp

/-- Witness for Claim C1 (amended) on a concrete constrained execution:
start, acquire, a rejected second attempt while running, then finish. -/
theorem single_flight_amended_witness :
    inFlight { pipelineRunning := false, threads := [Phase.finished] } ≤ 1 := by
  have h1 : schedStep schedInit (.tryStart true true) =
      some { pipelineRunning := false, threads := [Phase.spawned] } := rfl
  have h2 : schedStep { pipelineRunning := false, threads := [Phase.spawned] }
      (.acquire 0) = some { pipelineRunning := true, threads := [Phase.acquired] } := rfl
  have h3 : schedStep { pipelineRunning := true, threads := [Phase.acquired] }
      (.tryStart true true) =
      some { pipelineRunning := true, threads := [Phase.acquired] } := rfl
  have h4 : schedStep { pipelineRunning := true, threads := [Phase.acquired] }
      (.finish 0) = some { pipelineRunning := false, threads := [Phase.finished] } := rfl
  have hcs : CSteps schedInit
      [.tryStart true true, .acquire 0, .tryStart true true, .finish 0]
      { pipelineRunning := false, threads := [Phase.finished] } :=
    CSteps.cons _ _ _ _ _ h1 (fun _ _ _ => rfl)
      (CSteps.cons _ _ _ _ _ h2 (fun _ _ hx => nomatch hx)
        (CSteps.cons _ _ _ _ _ h3 (fun _ _ _ => rfl)
          (CSteps.cons _ _ _ _ _ h4 (fun _ _ hx => nomatch hx)
            (CSteps.nil _))))
  exact (single_flight_amended _ _ hcs).1

/-- Counterexample to Claim C2 as stated: the claim says the watermark is
mutated only by the pipeline runner and left unchanged whenever the Resolve
step raises; but a run whose project-match (Resolve) step raises still
advances the watermark from 0 to 100, and an ordinary fetch
(`save_messages`) also rewrites the on-disk watermark file
`json/last_processed_ts.txt`. -/
theorem watermark_only_on_success_counterexample :
    (run_pipeline 100
        { extractRaises := false, depRaises := false, matchRaises := true }
        { messages := [sampleMsg3], lastProcessedTs := 0 }).lastProcessedTs = 100
    ∧ (100 : ℚ) ≠ 0
    ∧ (save_messages "B" [sampleMsg3] []).2 = some 2 := by
  refine ⟨rfl, by norm_num, ?_⟩
  rw [save_messages_single]

/-- Claim C2 (amended): within a run the watermark is advanced exactly when
the Extract step does not raise — exceptions in the dependency-analysis and
project-match (Resolve) sections are caught by inner handlers and do not
prevent the advance — and, independently of any run, every `save_messages`
fetch rewrites the on-disk watermark file with the newest stored timestamp
(the head of the sorted store). -/
theorem watermark_advance_amended (snapTs : ℚ) (fx : PipeEffects) (st : Files) :
    (fx.extractRaises = true →
      (run_pipeline snapTs fx st).lastProcessedTs = st.lastProcessedTs)
    ∧ (fx.extractRaises = false →
      (run_pipeline snapTs fx st).lastProcessedTs = snapTs)
    ∧ ∀ (bot : String) (incoming existing : List Msg),
        (save_messages bot incoming existing).2 =
          ((save_messages bot incoming existing).1.head?).map tsKey := by
  refine ⟨?_, ?_, fun _ _ _ => rfl⟩
  · intro hx
    rw [run_pipeline_watermark, hx]
    rfl
  · intro hx
    rw [run_pipeline_watermark, hx]
    rfl

/-- Witness for Claim C2 (amended) at concrete inputs: a failed-extract run
leaves the watermark at 3. -/
theorem watermark_advance_amended_witness :
    (run_pipeline 7 { extractRaises := true, depRaises := false, matchRaises := false }
        { messages := [], lastProcessedTs := 3 }).lastProcessedTs = 3 :=
  (watermark_advance_amended 7
    { extractRaises := true, depRaises := false, matchRaises := false }
    { messages := [], lastProcessedTs := 3 }).1 rfl

/-- Counterexample to Claim C3 as stated: a message appended between the
snapshot read and the clear of the live pending set is in neither the batch
nor the next pending set — it vanishes, because the read and the clear are
two separate file writes with appends enabled in between. -/
theorem swap_message_loss_counterexample :
    swapRun { pending := [sampleMsg3], batch := [], pc := .idle }
      [.snapRead, .append sampleMsg4, .snapClear] =
      some { pending := [], batch := [sampleMsg3], pc := .cleared }
    ∧ sampleMsg4 ∉ ([] : List Msg)
    ∧ sampleMsg4 ∉ [sampleMsg3] := by
  refine ⟨rfl, by simp, ?_⟩
  intro hc

  rcases List.mem_singleton.mp hc with h
  exact absurd (congrArg Msg.ts h) (by simp [sampleMsg3, sampleMsg4])

/-- Claim C3 (amended): every message pending at the snapshot read is in the
batch, the live pending set is empty immediately after the swap, and every
message appended after the clear is present in the next pending set; only a
message appended in the window between the read and the clear is lost. -/
theorem swap_no_loss_amended (p0 ms : List Msg) (hne : p0 ≠ []) :
    swapRun { pending := p0, batch := [], pc := .idle } [.snapRead, .snapClear] =
      some { pending := [], batch := p0, pc := .cleared }
    ∧ swapRun { pending := p0, batch := [], pc := .idle }
        (.snapRead :: .snapClear :: ms.map SwapAct.append) =
      some { pending := ms, batch := p0, pc := .cleared } := by
  have hie : p0.isEmpty = false := by
    rcases p0 with _ | ⟨x, p⟩
    · exact absurd rfl hne
    · rfl
  have h1 : swapStep { pending := p0, batch := [], pc := SwapPc.idle } .snapRead =
      some { pending := p0, batch := p0, pc := SwapPc.readDone } := by
    rw [swapStep]
    rw [if_pos rfl]
    rw [hie]
    rfl
  have h2 : swapStep { pending := p0, batch := p0, pc := SwapPc.readDone } .snapClear =
      some { pending := [], batch := p0, pc := SwapPc.cleared } := rfl
  constructor
  · rw [swapRun_cons _ _ _ _ h1, swapRun_cons _ _ _ _ h2]
    rfl
  · rw [swapRun_cons _ _ _ _ h1, swapRun_cons _ _ _ _ h2, swap_appends]
    rfl

/-- Witness for Claim C3 (amended) at a concrete input: one message pending
at the snapshot, one appended after the clear; the first ends in the batch,
the second in the next pending set. -/
theorem swap_no_loss_amended_witness :
    swapRun { pending := [sampleMsg3], batch := [], pc := .idle }
      (.snapRead :: .snapClear :: [sampleMsg4].map SwapAct.append) =
      some { pending := [sampleMsg4], batch := [sampleMsg3], pc := .cleared } :=
  (swap_no_loss_amended [sampleMsg3] [sampleMsg4] (by simp)).2

/-- Claim C4: across every sequence of run events, successful or failed, the
watermark never decreases; and a successfully-extracting run whose silence
and not-running gates pass sets the watermark to the maximum of the current
watermark and the latest batch timestamp (it advances only when the latest
timestamp is strictly newer). -/
theorem watermark_monotone (st : Files) (events : List RunEvent) :
    st.lastProcessedTs ≤ (events.foldl applyRun st).lastProcessedTs
    ∧ ∀ (st2 : Files) (e : RunEvent), e.gatesOk = true →
        e.fx.extractRaises = false →
        (applyRun st2 e).lastProcessedTs = max st2.lastProcessedTs e.latestTs := by
  refine ⟨foldl_applyRun_mono events st, ?_⟩
  intro st2 e hg hex
  rw [applyRun]
  by_cases hlt : st2.lastProcessedTs < e.latestTs
  · rw [if_pos (by simp [hg, hlt])]
    rw [run_pipeline_watermark, hex]
    rw [max_eq_right (le_of_lt hlt)]
    rfl
  · rw [if_neg (by simp [hlt])]
    rw [max_eq_left (not_lt.mp hlt)]

/-- Witness for Claim C4 at a concrete input: a gated, successful run at
latest timestamp 5 over watermark 0 yields `max 0 5`. -/
theorem watermark_monotone_witness :
    (applyRun { messages := [], lastProcessedTs := 0 }
      { latestTs := 5, gatesOk := true,
        fx := { extractRaises := false, depRaises := false,
                matchRaises := false } }).lastProcessedTs = max (0 : ℚ) 5 :=
  (watermark_monotone { messages := [], lastProcessedTs := 0 } []).2
    { messages := [], lastProcessedTs := 0 }
    { latestTs := 5, gatesOk := true,
      fx := { extractRaises := false, depRaises := false, matchRaises := false } }
    rfl rfl

/-- Claim C6: a run is triggered on a poll tick iff the silence window has
elapsed since the newest observed message timestamp, the latest message
timestamp strictly exceeds the watermark, and no run is in flight; a
strictly newer observed message resets the silence timer; and in the
concrete scenario with threshold 60, messages at t=0 and t=30 do not trigger
a run at t=61 but do trigger one at t=91. -/
theorem debounce (now latest : ℚ) (st : MonState) :
    (maybe_start_guard now st latest = true ↔
      (silence_seconds ≤ now - st.last_new_message_ts
        ∧ st.last_processed_ts < latest
        ∧ st.pipeline_running = false))
    ∧ (∀ l : ℚ, st.last_new_message_ts < l →
        (observe_latest st l).last_new_message_ts = l)
    ∧ maybe_start_guard 61
        (observe_latest (observe_latest
          { last_processed_ts := 0, last_new_message_ts := 0,
            pipeline_running := false } 0) 30) 30 = false
    ∧ maybe_start_guard 91
        (observe_latest (observe_latest
          { last_processed_ts := 0, last_new_message_ts := 0,
            pipeline_running := false } 0) 30) 30 = true := by
  refine ⟨?_, ?_, ?_, ?_⟩
  · rw [maybe_start_guard]
    simp only [Bool.and_eq_true, decide_eq_true_eq, Bool.not_eq_true',
      ge_iff_le, gt_iff_lt, and_assoc]
  · intro l hl
    rw [observe_latest, if_pos hl]
  · have hobs : observe_latest (observe_latest
        { last_processed_ts := 0, last_new_message_ts := 0,
          pipeline_running := false } 0) 30 =
        { last_processed_ts := 0, last_new_message_ts := 30,
          pipeline_running := false } := by
      rw [observe_latest, observe_latest]
      norm_num
    rw [hobs, maybe_start_guard]
    norm_num [silence_seconds]
  · have hobs : observe_latest (observe_latest
        { last_processed_ts := 0, last_new_message_ts := 0,
          pipeline_running := false } 0) 30 =
        { last_processed_ts := 0, last_new_message_ts := 30,
          pipeline_running := false } := by
      rw [observe_latest, observe_latest]
      norm_num
    rw [hobs, maybe_start_guard]
    norm_num [silence_seconds]

/-- Witness for Claim C6 at a concrete input: observing timestamp 30 over a
silence timer at 0 resets the timer to 30. -/
theorem debounce_witness :
    (observe_latest
      { last_processed_ts := 0, last_new_message_ts := 0,
        pipeline_running := false } 30).last_new_message_ts = 30 :=
  (debounce 0 0
    { last_processed_ts := 0, last_new_message_ts := 0,
      pipeline_running := false }).2.1 30 (by norm_num)

/-- Claim C8: when Extract returns non-parseable output, the parse step
(`extract_valid_tasks_json`) treats it as an empty task set, returning an
empty list rather than raising; and the watermark is still withheld: every
run whose extraction step processes a non-empty message list — the only
runs in which any Extract output, parseable or not, exists —
has `extract_tasks.main()` raise (`NameError` on the unbound
`research_tasks` at the media-generation check, line 567) before returning,
the outer handler catches the exception, and the watermark is left
unchanged, so the batch is eligible again at the next silence detection. -/
theorem malformed_response_withheld (snapTs : ℚ) (fetched : List String)
    (dep mt : Bool) (st : Files) (hne : fetched ≠ []) :
    extract_valid_tasks_json none = Except.ok (PyVal.arr [])
    ∧ extract_tasks_main fetched =
        Except.error "NameError: name research_tasks is not defined"
    ∧ (run_pipeline_extract snapTs fetched dep mt st).lastProcessedTs =
        st.lastProcessedTs := by
  have hie : fetched.isEmpty = false := by
    rcases fetched with _ | ⟨x, l⟩
    · exact absurd rfl hne
    · rfl
  have hmain : extract_tasks_main fetched =
      Except.error "NameError: name research_tasks is not defined" := by
    rw [extract_tasks_main, hie]
    rfl
  refine ⟨rfl, hmain, ?_⟩
  rw [run_pipeline_extract, run_pipeline_watermark]
  rw [hmain]
  rfl

/-- Witness for Claim C8 at a concrete input: a run that fetched one message
text leaves the watermark at 3. -/
theorem malformed_response_withheld_witness :
    extract_valid_tasks_json none = Except.ok (PyVal.arr [])
    ∧ extract_tasks_main ["build a todo app"] =
        Except.error "NameError: name research_tasks is not defined"
    ∧ (run_pipeline_extract 100 ["build a todo app"] false false
        { messages := [], lastProcessedTs := 3 }).lastProcessedTs = 3 :=
  malformed_response_withheld 100 ["build a todo app"] false false
    { messages := [], lastProcessedTs := 3 } (by simp)

/-- Counterexample to Claim C9 as stated: `clear_json_files` does not reset
`media.json` to an empty object; it writes a non-empty default skeleton. -/
theorem startup_wipe_counterexample :
    isEmptyObjFile (clearFileContent "media.json"
      (FileContent.jsonVal (PyVal.dict []))) = false
    ∧ clearFileContent "media.json" (FileContent.jsonVal (PyVal.dict [])) =
      FileContent.jsonVal emptyMediaVal :=
  ⟨rfl, rfl⟩

/-- Claim C9 (amended): at startup, before polling begins, every `.json`
file other than `media.json` (in particular `messages.json` and
`project_embeddings.json`) is reset to the empty object, `media.json` is
reset to a fixed non-empty default skeleton, every `.txt` file (in
particular the watermark file `last_processed_ts.txt`) is truncated to the
empty string, and the `session_active.txt` marker is removed. -/
theorem startup_wipe_amended (name : String) (c : FileContent) :
    (strEndsWith name ".json" = true → name ≠ "media.json" →
      clearFileContent name c = FileContent.jsonVal (PyVal.dict []))
    ∧ clearFileContent "media.json" c = FileContent.jsonVal emptyMediaVal
    ∧ (strEndsWith name ".json" = false → strEndsWith name ".txt" = true →
      clearFileContent name c = FileContent.text "")
    ∧ ∀ (files : List (String × FileContent)) (p : String × FileContent),
        p ∈ clear_json_files files → p.1 ≠ "session_active.txt" := by
  refine ⟨?_, ?_, ?_, ?_⟩
  · intro hj hm
    rw [clearFileContent, if_neg hm]
    by_cases hpe : name = "project_embeddings.json"
    · rw [if_pos hpe]
    · rw [if_neg hpe, if_pos hj]
  · rw [clearFileContent, if_pos rfl]
  · intro hj ht
    have hm : name ≠ "media.json" := by
      intro hEq
      rw [hEq] at hj
      exact absurd hj (by decide)
    have hpe : name ≠ "project_embeddings.json" := by
      intro hEq
      rw [hEq] at hj
      exact absurd hj (by decide)
    rw [clearFileContent, if_neg hm, if_neg hpe]
    rw [hj]
    rw [ht]
    rfl
  · intro files p hp
    have := (List.mem_filter.mp hp).2
    exact of_decide_eq_true this

/-- Witness for Claim C9 (amended) at concrete inputs: `messages.json` is
reset to the empty object. -/
theorem startup_wipe_amended_witness :
    clearFileContent "messages.json" (FileContent.text "x") =
      FileContent.jsonVal (PyVal.dict []) :=
  (startup_wipe_amended "messages.json" (FileContent.text "x")).1 rfl
    (by decide)

end Kettle
